import Mathlib

/-!
# Verification of the `deez` dice-notation evaluator

Shallow embedding of `src/lib/lib.rs` (the evaluation engine) and
`src/lib/standard.rs` (the expression builder).  Randomness is made
explicit: the engine consumes a list of forced draws, one per call to
`rng.gen_range(1..=faces)`; running out of forced draws is the model
artifact `RollError.outOfDraws`.  A Rust `panic!` (which aborts the
process) is modeled as `RollError.panic msg`.
-/

/-- `RollRetention` from lib.rs lines 6-11. -/
inductive RollRetention where
  | Highest (n : Nat)
  | Lowest (n : Nat)
  | All
deriving Repr, DecidableEq

/-- `RollQuality` from lib.rs lines 13-18. -/
inductive RollQuality where
  | Good
  | Regular
  | Bad
deriving Repr, DecidableEq

/-- `RollItem` from lib.rs lines 20-25. -/
structure RollItem where
  value : Nat
  retained : Bool
  quality : RollQuality
deriving Repr, DecidableEq

/-- `RollResult` from lib.rs lines 27-32. -/
structure RollResult where
  input : String
  total : Int
  rolls : List RollItem
deriving Repr, DecidableEq

/-- `RollModifier` from lib.rs lines 65-72. -/
inductive RollModifier where
  | Add (n : Nat)
  | Subtract (n : Nat)
  | Multiply (n : Nat)
  | Divide (n : Nat)
  | Explode (n : Nat)
deriving Repr, DecidableEq

/-- `RollExpression` from lib.rs lines 74-80. -/
structure RollExpression where
  faces : Nat
  count : Nat
  retention : RollRetention
  modifiers : List RollModifier
deriving Repr, DecidableEq

/-- Failure modes of the embedded evaluator.  `panic` models a Rust
`panic!`, which unwinds and aborts the whole process; `outOfDraws` is a
model artifact: the forced-draw list was exhausted (the real generator
never runs out). -/
inductive RollError where
  | panic (msg : String)
  | outOfDraws
deriving Repr, DecidableEq

/-- The `find_map` loop of `RollExpression::explodes_at` (lib.rs lines
82-95): the first `Explode(n)` modifier decides; in range `[1, faces]`
it yields the threshold, out of range the code panics. -/
def findExplode (faces : Nat) : List RollModifier → Except RollError (Option Nat)
  | [] => .ok none
  | RollModifier.Explode n :: _ =>
      if n ≤ faces ∧ 1 ≤ n then .ok (some n)
      else .error (.panic ("Cannot explode above " ++ toString n))
  | _ :: ms => findExplode faces ms

/-- `RollExpression::explodes_at` (lib.rs lines 82-95). -/
def RollExpression.explodesAt (e : RollExpression) : Except RollError (Option Nat) :=
  findExplode e.faces e.modifiers

/-- Construction of one `RollItem` as pushed by the draw loop
(lib.rs lines 110-118 and 123-131): retained is initially true and the
quality match tests `v == self.faces` before `1`. -/
def mkItem (faces value : Nat) : RollItem :=
  { value := value
    retained := true
    quality :=
      if value = faces then RollQuality.Good
      else if value = 1 then RollQuality.Bad
      else RollQuality.Regular }

/-- The `while value >= n` explosion loop (lib.rs lines 120-133):
starting from the current `value`, while it is ≥ the threshold draw
again and push; returns the extra items and the remaining draws. -/
def explodeChain (faces n : Nat) : Nat → List Nat → Except RollError (List RollItem × List Nat)
  | value, [] => if n ≤ value then .error .outOfDraws else .ok ([], [])
  | value, d :: rest =>
    if n ≤ value then
      match explodeChain faces n d rest with
      | .error e => .error e
      | .ok (items, rem) => .ok (mkItem faces d :: items, rem)
    else .ok ([], d :: rest)

/-- The `for _ in 0..self.count` draw loop (lib.rs lines 108-134): each
iteration draws one die, pushes it, and (when a threshold is set) runs
the explosion loop. -/
def drawAll (faces : Nat) (explodeAt : Option Nat) : Nat → List Nat → Except RollError (List RollItem × List Nat)
  | 0, draws => .ok ([], draws)
  | _ + 1, [] => .error .outOfDraws
  | k + 1, d :: rest =>
    match (match explodeAt with
           | some n => explodeChain faces n d rest
           | none => .ok ([], rest)) with
    | .error e => .error e
    | .ok (chain, rem) =>
      match drawAll faces explodeAt k rem with
      | .error e => .error e
      | .ok (items, rem2) => .ok (mkItem faces d :: (chain ++ items), rem2)

/-- The retention sweep (lib.rs lines 147-152 / 165-170): for each item
in pool order, look up its value in the to-drop list with
`position` (first index), remove that single entry (`remove(idx)`), and
mark the item not retained. -/
def sweep : List Nat → List RollItem → List RollItem
  | _, [] => []
  | removals, i :: rest =>
    match removals.findIdx? (· == i.value) with
    | some idx => { i with retained := false } :: sweep (removals.eraseIdx idx) rest
    | none => i :: sweep removals rest

/-- Proof-friendly reformulation of `sweep`: `position` + `remove(idx)`
on the to-drop list is first-occurrence removal, i.e. `List.erase`
(`sweep_eq_sweepE` below proves the two agree). -/
def sweepE : List Nat → List RollItem → List RollItem
  | _, [] => []
  | removals, i :: rest =>
    if i.value ∈ removals then { i with retained := false } :: sweepE (removals.erase i.value) rest
    else i :: sweepE removals rest

/-- `vs` has no hot trailing value: every entry ≥ the threshold `t` is
followed by at least one further entry (so the final entry is < `t`). -/
def noTrailingHot (t : Nat) (vs : List Nat) : Prop :=
  ∀ i (h : i < vs.length), t ≤ vs[i] → i + 1 < vs.length

/-- Retention filtering (lib.rs lines 136-173).  `Highest n`: panic when
`n > count`; otherwise sort the pool values ascending and drop the first
`len - n` (the smallest).  `Lowest n`: same with the sort reversed.
`All`: unchanged. -/
def retentionFilter (retention : RollRetention) (count : Nat) (rolls : List RollItem) : Except RollError (List RollItem) :=
  match retention with
  | RollRetention.Highest n =>
    if n > count then .error (.panic "cannot remove that many")
    else
      let removals := (List.insertionSort (· ≤ ·) (rolls.map (·.value))).take (rolls.length - n)
      .ok (sweep removals rolls)
  | RollRetention.Lowest n =>
    if n > count then .error (.panic "cannot remove that many")
    else
      let removals := ((List.insertionSort (· ≤ ·) (rolls.map (·.value))).reverse).take (rolls.length - n)
      .ok (sweep removals rolls)
  | RollRetention.All => .ok rolls

/-- The fold computing `total` (lib.rs lines 175-181): signed sum of the
values of retained items only. -/
def sumRetained (rolls : List RollItem) : Int :=
  rolls.foldl (fun acc i => if i.retained then acc + (i.value : Int) else acc) 0

/-- The modifier loop (lib.rs lines 183-191), applied in declaration
order.  Rust `total /= n` on `isize` truncates toward zero and panics
("attempt to divide by zero") when `n = 0`; `Explode` falls through. -/
def applyModifiers : Int → List RollModifier → Except RollError Int
  | total, [] => .ok total
  | total, m :: ms =>
    match m with
    | RollModifier.Add n => applyModifiers (total + (n : Int)) ms
    | RollModifier.Subtract n => applyModifiers (total - (n : Int)) ms
    | RollModifier.Multiply n => applyModifiers (total * (n : Int)) ms
    | RollModifier.Divide n =>
        if n = 0 then .error (.panic "attempt to divide by zero")
        else applyModifiers (total.tdiv (n : Int)) ms
    | RollModifier.Explode _ => applyModifiers total ms

/-- `mod_str` (lib.rs lines 193-209): concatenation of one suffix per
modifier, in order; `Explode n` renders as bare "!" when `n = faces`. -/
def modStr (faces : Nat) (ms : List RollModifier) : String :=
  String.join (ms.map fun m =>
    match m with
    | RollModifier.Add n => "+" ++ toString n
    | RollModifier.Subtract n => "-" ++ toString n
    | RollModifier.Multiply n => "x" ++ toString n
    | RollModifier.Divide n => "/" ++ toString n
    | RollModifier.Explode n => if n ≠ faces then "!" ++ toString n else "!")

/-- `ret_str` (lib.rs lines 211-215). -/
def retStr : RollRetention → String
  | RollRetention.All => ""
  | RollRetention.Highest n => "h" ++ toString n
  | RollRetention.Lowest n => "l" ++ toString n

/-- The `input` reconstruction (lib.rs line 217):
`format!("{}d{}{}{}", count, faces, ret_str, mod_str)`. -/
def canonicalInput (e : RollExpression) : String :=
  toString e.count ++ "d" ++ toString e.faces ++ retStr e.retention ++ modStr e.faces e.modifiers

/-- `Roll::roll for RollExpression` (lib.rs lines 101-225) with the
draws made explicit.  Order as in the source: resolve the explosion
threshold, draw, filter retention, total, modifiers, reconstruct input.
Also returns the draws left unconsumed (the ambient generator state). -/
def rollStep (e : RollExpression) (draws : List Nat) : Except RollError (RollResult × List Nat) :=
  match e.explodesAt with
  | .error err => .error err
  | .ok explodeAt =>
    match drawAll e.faces explodeAt e.count draws with
    | .error err => .error err
    | .ok (rolls, rem) =>
      match retentionFilter e.retention e.count rolls with
      | .error err => .error err
      | .ok marked =>
        match applyModifiers (sumRetained marked) e.modifiers with
        | .error err => .error err
        | .ok total => .ok ({ input := canonicalInput e, total := total, rolls := marked }, rem)

/-- `Roll::roll`, result only. -/
def rollWith (e : RollExpression) (draws : List Nat) : Except RollError RollResult :=
  match rollStep e draws with
  | .error err => .error err
  | .ok (res, _) => .ok res

/-- The expression loop of `main` (src/bin/main.rs lines 21-27):
expressions are evaluated sequentially off the shared generator; a
`panic!` inside `roll` aborts the process, so an error stops every
later sibling (modeled by the short-circuit). -/
def runAll : List RollExpression → List Nat → Except RollError (List RollResult)
  | [], _ => .ok []
  | e :: es, draws =>
    match rollStep e draws with
    | .error err => .error err
    | .ok (res, rem) =>
      match runAll es rem with
      | .error err => .error err
      | .ok rest => .ok (res :: rest)

/-!
## Grammar and expression builder

The pest grammar file (`src/lib/standard.pest`, referenced by the
`#[grammar = "lib/standard.pest"]` attribute in standard.rs) is not part
of the sources; the parse-tree producer is therefore modelled from the
spec.  The tree-to-expression conversion below it follows
`From<pest::iterators::Pair> for RollExpression` (standard.rs lines
42-118) exactly.
-/

/-- Modelled from the spec: the `Faces` token, `'%' | digit+ (>=1)`. -/
inductive FacesTok where
  | percent
  | num (n : Nat)
deriving Repr, DecidableEq

/-- Modelled from the spec: the `Retention` token, `('h' | 'l') digit+`. -/
inductive RetTok where
  | highest (n : Nat)
  | lowest (n : Nat)
deriving Repr, DecidableEq

/-- Modelled from the spec: one `Modifier` token,
`('+' | '-' | 'x' | '/') digit+  |  '!' digit*`. -/
inductive ModTok where
  | add (n : Nat)
  | sub (n : Nat)
  | mul (n : Nat)
  | div (n : Nat)
  | explode (n : Option Nat)
deriving Repr, DecidableEq

/-- Modelled from the spec: the parse tree of one matched `RollExpr`
(`Dice Retention? Modifier*`, with `Dice := Count? 'd' Faces`). -/
structure RollExprTree where
  diceCount : Option Nat
  diceType : Option FacesTok
  ret : Option RetTok
  mods : List ModTok
deriving Repr, DecidableEq

/-- Longest leading run of decimal digits. -/
def takeDigits : List Char → (List Char × List Char)
  | [] => ([], [])
  | c :: cs =>
    if c.isDigit then
      let (ds, rest) := takeDigits cs
      (c :: ds, rest)
    else ([], c :: cs)

/-- Decimal value of a digit run. -/
def digitsVal (ds : List Char) : Nat :=
  ds.foldl (fun acc c => acc * 10 + (c.toNat - 48)) 0

/-- Modelled from the spec: `Dice := Count? 'd' Faces` with the
required rejections (zero count, zero faces, `%` admits no digit
suffix — trailing digits after `%` are simply left unconsumed and make
the overall parse fail at EOI). -/
def parseDice (cs : List Char) : Option ((Option Nat × Option FacesTok) × List Char) :=
  let (ds, rest) := takeDigits cs
  let cnt : Option Nat := if ds.isEmpty then none else some (digitsVal ds)
  if cnt = some 0 then none
  else
    match rest with
    | 'd' :: rest2 =>
      match rest2 with
      | '%' :: rest3 => some ((cnt, some FacesTok.percent), rest3)
      | _ =>
        let (fs, rest3) := takeDigits rest2
        if fs.isEmpty then none
        else if digitsVal fs = 0 then none
        else some ((cnt, some (FacesTok.num (digitsVal fs))), rest3)
    | _ => none

/-- Modelled from the spec: `Retention? := (('h' | 'l') digit+)?`. -/
def parseRet : List Char → (Option RetTok × List Char)
  | 'h' :: cs =>
    let (ds, rest) := takeDigits cs
    if ds.isEmpty then (none, 'h' :: cs) else (some (RetTok.highest (digitsVal ds)), rest)
  | 'l' :: cs =>
    let (ds, rest) := takeDigits cs
    if ds.isEmpty then (none, 'l' :: cs) else (some (RetTok.lowest (digitsVal ds)), rest)
  | cs => (none, cs)

/-- Modelled from the spec: one `Modifier` token. -/
def parseMod : List Char → Option (ModTok × List Char)
  | '+' :: cs =>
    let (ds, rest) := takeDigits cs
    if ds.isEmpty then none else some (ModTok.add (digitsVal ds), rest)
  | '-' :: cs =>
    let (ds, rest) := takeDigits cs
    if ds.isEmpty then none else some (ModTok.sub (digitsVal ds), rest)
  | 'x' :: cs =>
    let (ds, rest) := takeDigits cs
    if ds.isEmpty then none else some (ModTok.mul (digitsVal ds), rest)
  | '/' :: cs =>
    let (ds, rest) := takeDigits cs
    if ds.isEmpty then none else some (ModTok.div (digitsVal ds), rest)
  | '!' :: cs =>
    let (ds, rest) := takeDigits cs
    some (ModTok.explode (if ds.isEmpty then none else some (digitsVal ds)), rest)
  | _ => none

/-- Modelled from the spec: `Modifier*` (fuel-bounded loop; each
successful step consumes at least one character). -/
def parseMods : Nat → List Char → (List ModTok × List Char)
  | 0, cs => ([], cs)
  | fuel + 1, cs =>
    match parseMod cs with
    | none => ([], cs)
    | some (m, rest) =>
      let (ms, rest2) := parseMods fuel rest
      (m :: ms, rest2)

/-- Modelled from the spec: `RollExpr := Dice Retention? Modifier*`. -/
def parseExprTree (cs : List Char) : Option (RollExprTree × List Char) :=
  match parseDice cs with
  | none => none
  | some ((cnt, ftyp), rest) =>
    let (r, rest2) := parseRet rest
    let (ms, rest3) := parseMods rest2.length rest2
    some ({ diceCount := cnt, diceType := ftyp, ret := r, mods := ms }, rest3)

/-- Modelled from the spec: `Rolls := RollExpr+ EOI` (fuel-bounded). -/
def parseRollsAux : Nat → List Char → Option (List RollExprTree)
  | 0, _ => none
  | fuel + 1, cs =>
    match parseExprTree cs with
    | none => none
    | some (t, rest) =>
      if rest.isEmpty then some [t]
      else
        match parseRollsAux fuel rest with
        | none => none
        | some ts => some (t :: ts)

/-- Modelled from the spec: parse a whole input string into the trees
of its roll expressions, or fail (`InvalidNotation`) on malformed text. -/
def parseRolls (s : String) : Option (List RollExprTree) :=
  parseRollsAux (s.length + 1) s.data

/-- Tree-to-expression conversion, following `From<pest::iterators::Pair>
for RollExpression` (standard.rs lines 42-118): `count` defaults to 1,
`faces` to 6; the `"%"` face token forces `faces = 100`; retention
defaults to `All`; an `Explode` with no digits defaults its threshold to
the resolved `faces` (`n.unwrap_or(faces)`). -/
def buildExpression (t : RollExprTree) : RollExpression :=
  let count : Nat := match t.diceCount with
    | some n => n
    | none => 1
  let faces : Nat := match t.diceType with
    | some FacesTok.percent => 100
    | some (FacesTok.num n) => n
    | none => 6
  let retention : RollRetention := match t.ret with
    | some (RetTok.highest n) => RollRetention.Highest n
    | some (RetTok.lowest n) => RollRetention.Lowest n
    | none => RollRetention.All
  let modifiers : List RollModifier := t.mods.map fun m =>
    match m with
    | ModTok.add n => RollModifier.Add n
    | ModTok.sub n => RollModifier.Subtract n
    | ModTok.mul n => RollModifier.Multiply n
    | ModTok.div n => RollModifier.Divide n
    | ModTok.explode n => RollModifier.Explode (n.getD faces)
  { faces := faces, count := count, retention := retention, modifiers := modifiers }

/-- Parse and build, as `StandardNotation::parse_from_str` followed by
`RollExpression::from_pairs` (standard.rs lines 10-40). -/
def parseExpressions (s : String) : Option (List RollExpression) :=
  (parseRolls s).map (·.map buildExpression)

/-!
## Lemmas about the retention sweep
-/

theorem eraseIdx_of_findIdx (v : Nat) :
    ∀ (r : List Nat) (idx : Nat), r.findIdx? (· == v) = some idx → r.eraseIdx idx = r.erase v := by
  intro r
  induction r with
  | nil => intro idx h; simp at h
  | cons a r ih =>
    intro idx h
    rw [List.findIdx?_cons] at h
    by_cases hav : a = v
    · subst hav
      simp at h
      subst h
      simp [List.eraseIdx, List.erase_cons_head]
    · rw [if_neg (by simp [hav])] at h
      rw [List.findIdx?_succ] at h
      rcases Option.map_eq_some'.mp h with ⟨j, hj, hidx⟩
      subst hidx
      rw [List.eraseIdx_cons_succ, List.erase_cons_tail (by simp [hav]), ih j hj]

theorem not_mem_of_findIdx_none (v : Nat) (r : List Nat) (h : r.findIdx? (· == v) = none) :
    v ∉ r := by
  rw [List.findIdx?_eq_none_iff] at h
  intro hv
  simpa using h v hv

theorem mem_of_findIdx_some (v : Nat) (r : List Nat) (idx : Nat)
    (h : r.findIdx? (· == v) = some idx) : v ∈ r := by
  rcases List.findIdx?_eq_some_iff_getElem.mp h with ⟨hlt, hp, _⟩
  have : r[idx] = v := by simpa using hp
  exact this ▸ List.getElem_mem hlt

theorem sweep_eq_sweepE : ∀ (r : List Nat) (l : List RollItem), sweep r l = sweepE r l := by
  intro r l
  induction l generalizing r with
  | nil => rfl
  | cons i rest ih =>
    cases hf : r.findIdx? (· == i.value) with
    | none =>
      have hv : i.value ∉ r := not_mem_of_findIdx_none _ _ hf
      simp [sweep, sweepE, hf, hv, ih]
    | some idx =>
      have hv : i.value ∈ r := mem_of_findIdx_some _ _ _ hf
      have he : r.eraseIdx idx = r.erase i.value := eraseIdx_of_findIdx _ _ _ hf
      simp [sweep, sweepE, hf, hv, he, ih]

theorem sweepE_length : ∀ (r : List Nat) (l : List RollItem), (sweepE r l).length = l.length := by
  intro r l
  induction l generalizing r with
  | nil => rfl
  | cons i rest ih =>
    by_cases hv : i.value ∈ r <;> simp [sweepE, hv, ih]

theorem sweepE_map_value :
    ∀ (r : List Nat) (l : List RollItem), (sweepE r l).map (·.value) = l.map (·.value) := by
  intro r l
  induction l generalizing r with
  | nil => rfl
  | cons i rest ih =>
    by_cases hv : i.value ∈ r <;> simp [sweepE, hv, ih]

theorem sweepE_map_quality :
    ∀ (r : List Nat) (l : List RollItem), (sweepE r l).map (·.quality) = l.map (·.quality) := by
  intro r l
  induction l generalizing r with
  | nil => rfl
  | cons i rest ih =>
    by_cases hv : i.value ∈ r <;> simp [sweepE, hv, ih]

theorem length_le_of_count_le (r : List Nat) (s : List Nat)
    (h : ∀ v, r.count v ≤ s.count v) : r.length ≤ s.length := by
  have hsub : r.Subperm s := List.subperm_ext_iff.mpr (fun v _ => h v)
  exact hsub.length_le

/-- Core counting argument: sweeping a to-drop list that is a
sub-multiset of the pool values marks exactly one item per to-drop entry,
so `length - removals.length` items stay retained. -/
theorem sweepE_countP_retained :
    ∀ (l : List RollItem) (r : List Nat),
      (∀ i ∈ l, i.retained = true) →
      (∀ v, r.count v ≤ (l.map (·.value)).count v) →
      (sweepE r l).countP (·.retained) = l.length - r.length := by
  intro l
  induction l with
  | nil =>
    intro r _ hc
    have : r = [] := by
      cases r with
      | nil => rfl
      | cons a r' =>
        have := hc a
        simp [List.count_cons_self] at this
    subst this
    rfl
  | cons i rest ih =>
    intro r hret hc
    by_cases hv : i.value ∈ r
    · have hc2 : ∀ v, (r.erase i.value).count v ≤ (rest.map (·.value)).count v := by
        intro v
        have hcv := hc v
        rw [List.map_cons] at hcv
        rw [List.count_erase]
        by_cases hvi : v = i.value
        · subst hvi
          rw [List.count_cons_self] at hcv
          simp only [beq_self_eq_true, if_true]
          omega
        · rw [List.count_cons_of_ne hvi] at hcv
          rw [if_neg (by simp [Ne.symm hvi])]
          omega
      have hlen : 1 ≤ r.length := List.length_pos.mpr (by rintro rfl; simp at hv)
      have herlen : (r.erase i.value).length = r.length - 1 := List.length_erase_of_mem hv
      have hrec := ih (r.erase i.value) (fun j hj => hret j (List.mem_cons_of_mem _ hj)) hc2
      have hstep : (sweepE r (i :: rest)).countP (·.retained) =
          (sweepE (r.erase i.value) rest).countP (·.retained) := by
        rw [sweepE, if_pos hv, List.countP_cons]
        simp
      rw [hstep, hrec, herlen, List.length_cons]
      omega
    · have hc2 : ∀ v, r.count v ≤ (rest.map (·.value)).count v := by
        intro v
        have hcv := hc v
        rw [List.map_cons] at hcv
        by_cases hvi : v = i.value
        · subst hvi
          have h0 : r.count i.value = 0 := List.count_eq_zero.mpr hv
          omega
        · rw [List.count_cons_of_ne hvi] at hcv
          exact hcv
      have hrl : r.length ≤ rest.length := by
        have := length_le_of_count_le r (rest.map (·.value)) hc2
        simpa using this
      have hir : i.retained = true := hret i (List.mem_cons_self i rest)
      have hrec := ih r (fun j hj => hret j (List.mem_cons_of_mem _ hj)) hc2
      have hstep : (sweepE r (i :: rest)).countP (·.retained) =
          (sweepE r rest).countP (·.retained) + 1 := by
        rw [sweepE, if_neg hv, List.countP_cons]
        simp [hir]
      rw [hstep, hrec, List.length_cons]
      omega

theorem take_sort_count_le (vals : List Nat) (k v : Nat) :
    ((List.insertionSort (· ≤ ·) vals).take k).count v ≤ vals.count v := by
  have h1 : ((List.insertionSort (· ≤ ·) vals).take k).count v ≤
      (List.insertionSort (· ≤ ·) vals).count v :=
    (List.take_sublist _ _).count_le _
  have h2 : (List.insertionSort (· ≤ ·) vals).count v = vals.count v :=
    (List.perm_insertionSort _ vals).count_eq v
  omega

theorem take_sort_reverse_count_le (vals : List Nat) (k v : Nat) :
    (((List.insertionSort (· ≤ ·) vals).reverse).take k).count v ≤ vals.count v := by
  have h1 : (((List.insertionSort (· ≤ ·) vals).reverse).take k).count v ≤
      ((List.insertionSort (· ≤ ·) vals).reverse).count v :=
    (List.take_sublist _ _).count_le _
  have h2 : ((List.insertionSort (· ≤ ·) vals).reverse).count v = vals.count v := by
    rw [List.count_reverse]
    exact (List.perm_insertionSort _ vals).count_eq v
  omega

theorem length_insertionSort_eq (vals : List Nat) :
    (List.insertionSort (· ≤ ·) vals).length = vals.length :=
  (List.perm_insertionSort _ vals).length_eq

/-- Sweeping with the to-drop list built by the `Highest` branch leaves
exactly `n` items retained (for an all-retained pool of size ≥ n). -/
theorem retentionFilter_highest_countP (n count : Nat) (l marked : List RollItem)
    (hall : ∀ i ∈ l, i.retained = true) (hn : n ≤ l.length)
    (h : retentionFilter (RollRetention.Highest n) count l = .ok marked) :
    marked.countP (·.retained) = n := by
  simp only [retentionFilter] at h
  by_cases hnc : n > count
  · rw [if_pos hnc] at h
    simp at h
  · rw [if_neg hnc] at h
    simp only [Except.ok.injEq] at h
    subst h
    rw [sweep_eq_sweepE]
    have hcount := sweepE_countP_retained l
      ((List.insertionSort (· ≤ ·) (l.map (·.value))).take (l.length - n)) hall
      (fun v => take_sort_count_le (l.map (·.value)) (l.length - n) v)
    rw [hcount]
    rw [List.length_take, length_insertionSort_eq, List.length_map]
    omega

/-- Same for the `Lowest` branch (reverse-sorted to-drop list). -/
theorem retentionFilter_lowest_countP (n count : Nat) (l marked : List RollItem)
    (hall : ∀ i ∈ l, i.retained = true) (hn : n ≤ l.length)
    (h : retentionFilter (RollRetention.Lowest n) count l = .ok marked) :
    marked.countP (·.retained) = n := by
  simp only [retentionFilter] at h
  by_cases hnc : n > count
  · rw [if_pos hnc] at h
    simp at h
  · rw [if_neg hnc] at h
    simp only [Except.ok.injEq] at h
    subst h
    rw [sweep_eq_sweepE]
    have hcount := sweepE_countP_retained l
      (((List.insertionSort (· ≤ ·) (l.map (·.value))).reverse).take (l.length - n)) hall
      (fun v => take_sort_reverse_count_le (l.map (·.value)) (l.length - n) v)
    rw [hcount]
    rw [List.length_take, List.length_reverse, length_insertionSort_eq, List.length_map]
    omega

theorem retentionFilter_highest_le (n count : Nat) (l marked : List RollItem)
    (h : retentionFilter (RollRetention.Highest n) count l = .ok marked) : n ≤ count := by
  simp only [retentionFilter] at h
  by_cases hnc : n > count
  · rw [if_pos hnc] at h
    simp at h
  · omega

theorem retentionFilter_lowest_le (n count : Nat) (l marked : List RollItem)
    (h : retentionFilter (RollRetention.Lowest n) count l = .ok marked) : n ≤ count := by
  simp only [retentionFilter] at h
  by_cases hnc : n > count
  · rw [if_pos hnc] at h
    simp at h
  · omega

theorem retentionFilter_all_eq (count : Nat) (l marked : List RollItem)
    (h : retentionFilter RollRetention.All count l = .ok marked) : marked = l := by
  simp only [retentionFilter] at h
  simpa using h.symm

/-- Retention never changes values, qualities, order or length — it only
flips `retained` flags. -/
theorem retentionFilter_shape (ret : RollRetention) (count : Nat) (l marked : List RollItem)
    (h : retentionFilter ret count l = .ok marked) :
    marked.map (·.value) = l.map (·.value) ∧
    marked.map (·.quality) = l.map (·.quality) ∧
    marked.length = l.length := by
  cases ret with
  | All =>
    have := retentionFilter_all_eq count l marked h
    subst this
    exact ⟨rfl, rfl, rfl⟩
  | Highest n =>
    simp only [retentionFilter] at h
    by_cases hnc : n > count
    · rw [if_pos hnc] at h
      simp at h
    · rw [if_neg hnc] at h
      simp only [Except.ok.injEq] at h
      subst h
      rw [sweep_eq_sweepE]
      exact ⟨sweepE_map_value _ _, sweepE_map_quality _ _, sweepE_length _ _⟩
  | Lowest n =>
    simp only [retentionFilter] at h
    by_cases hnc : n > count
    · rw [if_pos hnc] at h
      simp at h
    · rw [if_neg hnc] at h
      simp only [Except.ok.injEq] at h
      subst h
      rw [sweep_eq_sweepE]
      exact ⟨sweepE_map_value _ _, sweepE_map_quality _ _, sweepE_length _ _⟩

/-!
## Lemmas about the draw loop
-/

/-- Every item an explosion chain appends is `mkItem` of one of the
forced draws, and the unconsumed draws form a sublist of the input. -/
theorem explodeChain_shape (faces n : Nat) :
    ∀ (draws : List Nat) (v : Nat) (items : List RollItem) (rem : List Nat),
      explodeChain faces n v draws = .ok (items, rem) →
      (∀ i ∈ items, ∃ d ∈ draws, i = mkItem faces d) ∧ rem.Sublist draws := by
  intro draws
  induction draws with
  | nil =>
    intro v items rem h
    simp only [explodeChain] at h
    by_cases hnv : n ≤ v
    · rw [if_pos hnv] at h
      exact absurd h (by simp)
    · rw [if_neg hnv] at h
      simp only [Except.ok.injEq, Prod.mk.injEq] at h
      obtain ⟨h1, h2⟩ := h
      subst h1
      subst h2
      exact ⟨by simp, List.Sublist.refl _⟩
  | cons d rest ih =>
    intro v items rem h
    simp only [explodeChain] at h
    by_cases hnv : n ≤ v
    · rw [if_pos hnv] at h
      cases hrec : explodeChain faces n d rest with
      | error e =>
        rw [hrec] at h
        exact absurd h (by simp)
      | ok pr =>
        obtain ⟨chain, rem'⟩ := pr
        rw [hrec] at h
        simp only [Except.ok.injEq, Prod.mk.injEq] at h
        obtain ⟨h1, h2⟩ := h
        obtain ⟨hmem, hsub⟩ := ih d chain rem' hrec
        subst h1
        subst h2
        constructor
        · intro i hi
          rcases List.mem_cons.mp hi with hi | hi
          · exact ⟨d, List.mem_cons_self d rest, hi⟩
          · obtain ⟨dd, hdd, hii⟩ := hmem i hi
            exact ⟨dd, List.mem_cons_of_mem _ hdd, hii⟩
        · exact hsub.trans (List.sublist_cons_self d rest)
    · rw [if_neg hnv] at h
      simp only [Except.ok.injEq, Prod.mk.injEq] at h
      obtain ⟨h1, h2⟩ := h
      subst h1
      subst h2
      exact ⟨by simp, List.Sublist.refl _⟩

/-- Every item the draw loop produces is `mkItem` of a forced draw, the
unconsumed draws are a sublist, and at least `k` items are produced. -/
theorem drawAll_shape (faces : Nat) (explodeAt : Option Nat) :
    ∀ (k : Nat) (draws : List Nat) (items : List RollItem) (rem : List Nat),
      drawAll faces explodeAt k draws = .ok (items, rem) →
      (∀ i ∈ items, ∃ d ∈ draws, i = mkItem faces d) ∧ rem.Sublist draws ∧ k ≤ items.length := by
  intro k
  induction k with
  | zero =>
    intro draws items rem h
    simp only [drawAll, Except.ok.injEq, Prod.mk.injEq] at h
    obtain ⟨h1, h2⟩ := h
    subst h1
    subst h2
    exact ⟨by simp, List.Sublist.refl _, Nat.zero_le _⟩
  | succ k ih =>
    intro draws items rem h
    cases draws with
    | nil => exact absurd h (by simp [drawAll])
    | cons d rest =>
      simp only [drawAll] at h
      have hchain : ∀ (chain : List RollItem) (rem1 : List Nat),
          (match explodeAt with
           | some n => explodeChain faces n d rest
           | none => .ok ([], rest)) = .ok (chain, rem1) →
          (∀ i ∈ chain, ∃ dd ∈ rest, i = mkItem faces dd) ∧ rem1.Sublist rest := by
        intro chain rem1 hc
        cases explodeAt with
        | some n => exact explodeChain_shape faces n rest d chain rem1 hc
        | none =>
          simp only [Except.ok.injEq, Prod.mk.injEq] at hc
          obtain ⟨hc1, hc2⟩ := hc
          subst hc1
          subst hc2
          exact ⟨by simp, List.Sublist.refl _⟩
      cases hm : (match explodeAt with
                  | some n => explodeChain faces n d rest
                  | none => (.ok ([], rest) : Except RollError (List RollItem × List Nat))) with
      | error e =>
        rw [hm] at h
        exact absurd h (by simp)
      | ok pr =>
        obtain ⟨chain, rem1⟩ := pr
        rw [hm] at h
        have h2 : (match drawAll faces explodeAt k rem1 with
                   | .error e => (.error e : Except RollError (List RollItem × List Nat))
                   | .ok (items2, rem2) => .ok (mkItem faces d :: (chain ++ items2), rem2)) =
            .ok (items, rem) := h
        cases hrec : drawAll faces explodeAt k rem1 with
        | error e =>
          rw [hrec] at h2
          exact absurd h2 (by simp)
        | ok pr2 =>
          obtain ⟨items2, rem2⟩ := pr2
          rw [hrec] at h2
          simp only [Except.ok.injEq, Prod.mk.injEq] at h2
          obtain ⟨h3, h4⟩ := h2
          obtain ⟨hcm, hcs⟩ := hchain chain rem1 hm
          obtain ⟨hrm, hrs, hrl⟩ := ih rem1 items2 rem2 hrec
          subst h3
          subst h4
          refine ⟨?_, ?_, ?_⟩
          · intro i hi
            rcases List.mem_cons.mp hi with hi | hi
            · exact ⟨d, List.mem_cons_self d rest, hi⟩
            · rcases List.mem_append.mp hi with hi | hi
              · obtain ⟨dd, hdd, hii⟩ := hcm i hi
                exact ⟨dd, List.mem_cons_of_mem _ hdd, hii⟩
              · obtain ⟨dd, hdd, hii⟩ := hrm i hi
                exact ⟨dd, List.mem_cons_of_mem _ (hcs.mem hdd), hii⟩
          · exact (hrs.trans hcs).trans (List.sublist_cons_self d rest)
          · simp only [List.length_cons, List.length_append]
            omega

theorem noTrailingHot_append (t : Nat) (A B : List Nat)
    (hA : noTrailingHot t A) (hB : noTrailingHot t B) : noTrailingHot t (A ++ B) := by
  intro i h hhot
  rw [List.length_append] at h ⊢
  rw [List.getElem_append] at hhot
  by_cases hiA : i < A.length
  · rw [dif_pos hiA] at hhot
    have := hA i hiA hhot
    omega
  · rw [dif_neg hiA] at hhot
    have hi2 : i - A.length < B.length := by omega
    have := hB (i - A.length) hi2 hhot
    omega

/-- The value block contributed by one die (its initial draw plus its
explosion chain) has no hot trailing value: the chain only stops on a
draw strictly below the threshold. -/
theorem explodeChain_hot (faces n : Nat) :
    ∀ (draws : List Nat) (v : Nat) (items : List RollItem) (rem : List Nat),
      explodeChain faces n v draws = .ok (items, rem) →
      noTrailingHot n (v :: items.map (·.value)) := by
  intro draws
  induction draws with
  | nil =>
    intro v items rem h
    simp only [explodeChain] at h
    by_cases hnv : n ≤ v
    · rw [if_pos hnv] at h
      exact absurd h (by simp)
    · rw [if_neg hnv] at h
      simp only [Except.ok.injEq, Prod.mk.injEq] at h
      obtain ⟨h1, h2⟩ := h
      subst h1
      intro i hlen hhot
      simp only [List.map_nil, List.length_cons, List.length_nil] at hlen hhot ⊢
      interval_cases i
      · simp at hhot
        omega
  | cons d rest ih =>
    intro v items rem h
    simp only [explodeChain] at h
    by_cases hnv : n ≤ v
    · rw [if_pos hnv] at h
      cases hrec : explodeChain faces n d rest with
      | error e =>
        rw [hrec] at h
        exact absurd h (by simp)
      | ok pr =>
        obtain ⟨chain, rem'⟩ := pr
        rw [hrec] at h
        simp only [Except.ok.injEq, Prod.mk.injEq] at h
        obtain ⟨h1, h2⟩ := h
        have htail := ih d chain rem' hrec
        subst h1
        have hmap : (mkItem faces d :: chain).map (·.value) = d :: chain.map (·.value) := by
          simp [mkItem]
        rw [hmap]
        intro i hlen hhot
        cases i with
        | zero =>
          simp only [List.length_cons, List.length_map] at hlen ⊢
          omega
        | succ j =>
          simp only [List.length_cons, List.length_map] at hlen ⊢
          have hj : j < (d :: chain.map (·.value)).length := by
            simp only [List.length_cons, List.length_map]
            omega
          have hhot2 : n ≤ (d :: chain.map (·.value))[j] := by
            simpa using hhot
          have := htail j hj hhot2
          simp only [List.length_cons, List.length_map] at this
          omega
    · rw [if_neg hnv] at h
      simp only [Except.ok.injEq, Prod.mk.injEq] at h
      obtain ⟨h1, h2⟩ := h
      subst h1
      intro i hlen hhot
      simp only [List.map_nil, List.length_cons, List.length_nil] at hlen hhot ⊢
      interval_cases i
      · simp at hhot
        omega

/-- With a threshold set, the whole pool of drawn values has no hot
trailing value in any position: a value ≥ threshold is always followed
by its chained redraw. -/
theorem drawAll_hot (faces n : Nat) :
    ∀ (k : Nat) (draws : List Nat) (items : List RollItem) (rem : List Nat),
      drawAll faces (some n) k draws = .ok (items, rem) →
      noTrailingHot n (items.map (·.value)) := by
  intro k
  induction k with
  | zero =>
    intro draws items rem h
    simp only [drawAll, Except.ok.injEq, Prod.mk.injEq] at h
    obtain ⟨h1, _⟩ := h
    subst h1
    intro i hlen
    simp at hlen
  | succ k ih =>
    intro draws items rem h
    cases draws with
    | nil => exact absurd h (by simp [drawAll])
    | cons d rest =>
      simp only [drawAll] at h
      cases hm : explodeChain faces n d rest with
      | error e =>
        rw [hm] at h
        exact absurd h (by simp)
      | ok pr =>
        obtain ⟨chain, rem1⟩ := pr
        rw [hm] at h
        have h2 : (match drawAll faces (some n) k rem1 with
                   | .error e => (.error e : Except RollError (List RollItem × List Nat))
                   | .ok (items2, rem2) => .ok (mkItem faces d :: (chain ++ items2), rem2)) =
            .ok (items, rem) := h
        cases hrec : drawAll faces (some n) k rem1 with
        | error e =>
          rw [hrec] at h2
          exact absurd h2 (by simp)
        | ok pr2 =>
          obtain ⟨items2, rem2⟩ := pr2
          rw [hrec] at h2
          simp only [Except.ok.injEq, Prod.mk.injEq] at h2
          obtain ⟨h3, h4⟩ := h2
          have hblock := explodeChain_hot faces n rest d chain rem1 hm
          have htail := ih rem1 items2 rem2 hrec
          subst h3
          have hmap : (mkItem faces d :: (chain ++ items2)).map (·.value) =
              (d :: chain.map (·.value)) ++ items2.map (·.value) := by
            simp [mkItem]
          rw [hmap]
          exact noTrailingHot_append n _ _ hblock htail

/-!
## Lemmas about modifiers and the top-level evaluation
-/

/-- A successful run of the modifier loop computes the plain fold with
truncating division (`Int.tdiv`, Rust `isize` division): every `Divide`
on the success path has a non-zero operand. -/
theorem applyModifiers_ok (ms : List RollModifier) :
    ∀ (t r : Int), applyModifiers t ms = .ok r →
      r = ms.foldl (fun acc m =>
        match m with
        | RollModifier.Add n => acc + (n : Int)
        | RollModifier.Subtract n => acc - (n : Int)
        | RollModifier.Multiply n => acc * (n : Int)
        | RollModifier.Divide n => acc.tdiv (n : Int)
        | RollModifier.Explode _ => acc) t := by
  induction ms with
  | nil =>
    intro t r h
    simp only [applyModifiers, Except.ok.injEq] at h
    simp [h]
  | cons m ms ih =>
    intro t r h
    cases m with
    | Add n =>
      simp only [applyModifiers] at h
      simpa using ih _ _ h
    | Subtract n =>
      simp only [applyModifiers] at h
      simpa using ih _ _ h
    | Multiply n =>
      simp only [applyModifiers] at h
      simpa using ih _ _ h
    | Divide n =>
      simp only [applyModifiers] at h
      by_cases hn : n = 0
      · rw [if_pos hn] at h
        exact absurd h (by simp)
      · rw [if_neg hn] at h
        simpa using ih _ _ h
    | Explode n =>
      simp only [applyModifiers] at h
      simpa using ih _ _ h

/-- Decomposition of a successful `rollWith` run into the successful
runs of its stages. -/
theorem rollWith_ok_elim {e : RollExpression} {draws : List Nat} {res : RollResult}
    (h : rollWith e draws = .ok res) :
    ∃ explodeAt rolls rem,
      e.explodesAt = .ok explodeAt ∧
      drawAll e.faces explodeAt e.count draws = .ok (rolls, rem) ∧
      retentionFilter e.retention e.count rolls = .ok res.rolls ∧
      applyModifiers (sumRetained res.rolls) e.modifiers = .ok res.total ∧
      res.input = canonicalInput e := by
  unfold rollWith at h
  split at h
  · exact absurd h (by simp)
  · rename_i pr res' rem0 heq
    simp only [Except.ok.injEq] at h
    subst h
    unfold rollStep at heq
    split at heq
    · exact absurd heq (by simp)
    · rename_i explodeAt h1
      split at heq
      · exact absurd heq (by simp)
      · rename_i pr2 rolls rem hd
        split at heq
        · exact absurd heq (by simp)
        · rename_i marked hr
          split at heq
          · exact absurd heq (by simp)
          · rename_i total ha
            simp only [Except.ok.injEq, Prod.mk.injEq] at heq
            obtain ⟨heq1, heq2⟩ := heq
            subst heq1
            exact ⟨explodeAt, rolls, rem, h1, hd, hr, ha, rfl⟩

/-!
## The claims
-/

/-- C1 (amended): for every evaluated expression, `canonical_input` is
reconstructed from the resolved expression as count, then 'd', then
faces rendered in decimal digits — including faces = 100, which renders
as "100", not as the '%' marker — followed by the retention suffix and
the modifier suffixes in their original order (an `Explode` whose
threshold equals `faces` renders as bare "!"). -/
theorem claim_C1 (e : RollExpression) (draws : List Nat) (res : RollResult)
    (h : rollWith e draws = .ok res) :
    res.input = toString e.count ++ "d" ++ toString e.faces ++
      (match e.retention with
       | RollRetention.All => ""
       | RollRetention.Highest n => "h" ++ toString n
       | RollRetention.Lowest n => "l" ++ toString n) ++
      String.join (e.modifiers.map fun m =>
        match m with
        | RollModifier.Add n => "+" ++ toString n
        | RollModifier.Subtract n => "-" ++ toString n
        | RollModifier.Multiply n => "x" ++ toString n
        | RollModifier.Divide n => "/" ++ toString n
        | RollModifier.Explode n => if n ≠ e.faces then "!" ++ toString n else "!") := by
  obtain ⟨_, _, _, _, _, _, _, hi⟩ := rollWith_ok_elim h
  rw [hi]
  unfold canonicalInput
  have h1 : retStr e.retention =
      (match e.retention with
       | RollRetention.All => ""
       | RollRetention.Highest n => "h" ++ toString n
       | RollRetention.Lowest n => "l" ++ toString n) := by
    cases e.retention <;> rfl
  rw [h1]
  rfl

/-- C1, refuting the claim as stated: the expression parsed from "d%"
(faces forced to 100 by the percentile marker) renders its canonical
input as "1d100", not "1d%" — the '%' marker is not preserved. -/
theorem claim_C1_counterexample :
    parseExpressions "d%" = some [⟨100, 1, RollRetention.All, []⟩] ∧
    rollWith ⟨100, 1, RollRetention.All, []⟩ [42] =
      .ok { input := "1d100", total := 42, rolls := [⟨42, true, RollQuality.Regular⟩] } ∧
    ("1d100" : String) ≠ "1d%" :=
  ⟨rfl, rfl, by decide⟩

/-- C1, witness: evaluating 2d6h1 with modifiers +2 and ! at draws
[3, 4] renders "2d6h1+2!" in the claimed format. -/
theorem claim_C1_witness :
    ({ input := "2d6h1+2!", total := 6,
       rolls := [⟨3, false, RollQuality.Regular⟩, ⟨4, true, RollQuality.Regular⟩] } :
        RollResult).input =
      toString 2 ++ "d" ++ toString 6 ++ ("h" ++ toString 1) ++ String.join ["+2", "!"] :=
  claim_C1 ⟨6, 2, RollRetention.Highest 1, [RollModifier.Add 2, RollModifier.Explode 6]⟩
    [3, 4]
    { input := "2d6h1+2!", total := 6,
      rolls := [⟨3, false, RollQuality.Regular⟩, ⟨4, true, RollQuality.Regular⟩] } rfl

/-- C2: retention drops outcomes by value, in encounter order within the
pool, with single-match removal per hit.  "3d6h2" at forced draws
[2, 5, 4] retains 5 and 4, drops the single outcome of value 2, total 9;
and at draws [5, 3, 3] (duplicate values) it is the first-encountered 3
that is dropped, total 8. -/
theorem claim_C2 :
    rollWith ⟨6, 3, RollRetention.Highest 2, []⟩ [2, 5, 4] =
      .ok { input := "3d6h2", total := 9,
            rolls := [⟨2, false, RollQuality.Regular⟩, ⟨5, true, RollQuality.Regular⟩,
                      ⟨4, true, RollQuality.Regular⟩] } ∧
    rollWith ⟨6, 3, RollRetention.Highest 2, []⟩ [5, 3, 3] =
      .ok { input := "3d6h2", total := 8,
            rolls := [⟨5, true, RollQuality.Regular⟩, ⟨3, false, RollQuality.Regular⟩,
                      ⟨3, true, RollQuality.Regular⟩] } :=
  ⟨rfl, rfl⟩

/-- C3: on every successful evaluation, retention `Highest n` or
`Lowest n` leaves exactly `n` outcomes retained — which equals
`min n outcomes.len` since the pool (including explosion-added dice,
over which the filtering runs) has at least `count ≥ n` outcomes — and
under `All` every outcome stays retained. -/
theorem claim_C3 (e : RollExpression) (draws : List Nat) (res : RollResult)
    (h : rollWith e draws = .ok res) :
    (∀ n, e.retention = RollRetention.Highest n →
        res.rolls.countP (·.retained) = n ∧ min n res.rolls.length = n) ∧
    (∀ n, e.retention = RollRetention.Lowest n →
        res.rolls.countP (·.retained) = n ∧ min n res.rolls.length = n) ∧
    (e.retention = RollRetention.All → ∀ i ∈ res.rolls, i.retained = true) := by
  obtain ⟨explodeAt, rolls, rem, h1, hd, hr, ha, hi⟩ := rollWith_ok_elim h
  obtain ⟨hmem, hsub, hlen⟩ := drawAll_shape e.faces explodeAt e.count draws rolls rem hd
  have hall : ∀ i ∈ rolls, i.retained = true := by
    intro i hi2
    obtain ⟨d, _, hieq⟩ := hmem i hi2
    rw [hieq]
    rfl
  have hlenr : res.rolls.length = rolls.length := (retentionFilter_shape _ _ _ _ hr).2.2
  refine ⟨?_, ?_, ?_⟩
  · intro n hn
    rw [hn] at hr
    have hnc := retentionFilter_highest_le n e.count rolls res.rolls hr
    have hcnt := retentionFilter_highest_countP n e.count rolls res.rolls hall (by omega) hr
    refine ⟨hcnt, ?_⟩
    rw [hlenr]
    omega
  · intro n hn
    rw [hn] at hr
    have hnc := retentionFilter_lowest_le n e.count rolls res.rolls hr
    have hcnt := retentionFilter_lowest_countP n e.count rolls res.rolls hall (by omega) hr
    refine ⟨hcnt, ?_⟩
    rw [hlenr]
    omega
  · intro hn i hi2
    rw [hn] at hr
    have heq := retentionFilter_all_eq e.count rolls res.rolls hr
    rw [heq] at hi2
    exact hall i hi2

/-- C3, witness: 2d6h2 with an explosion (pool [6, 3, 2] of size 3 from
count 2) retains exactly 2 outcomes. -/
theorem claim_C3_witness :
    ([⟨6, true, RollQuality.Good⟩, ⟨3, true, RollQuality.Regular⟩,
      ⟨2, false, RollQuality.Regular⟩] : List RollItem).countP (·.retained) = 2 ∧
    min 2 ([⟨6, true, RollQuality.Good⟩, ⟨3, true, RollQuality.Regular⟩,
      ⟨2, false, RollQuality.Regular⟩] : List RollItem).length = 2 :=
  (claim_C3 ⟨6, 2, RollRetention.Highest 2, [RollModifier.Explode 6]⟩ [6, 3, 2]
    { input := "2d6h2!", total := 9,
      rolls := [⟨6, true, RollQuality.Good⟩, ⟨3, true, RollQuality.Regular⟩,
                ⟨2, false, RollQuality.Regular⟩] } rfl).1 2 rfl

/-- C4, against the claim's locality: `Highest n` with `n` above the
original `count` (even when the exploded pool is large enough) makes the
code panic "cannot remove that many" — a process-aborting failure, shown
by `runAll` yielding no result for the healthy sibling expression — not
a local, per-expression `InvalidRetention` error. -/
theorem claim_C4 :
    rollWith ⟨6, 2, RollRetention.Highest 3, []⟩ [4, 5] =
      .error (.panic "cannot remove that many") ∧
    rollWith ⟨6, 2, RollRetention.Lowest 3, []⟩ [4, 5] =
      .error (.panic "cannot remove that many") ∧
    rollWith ⟨6, 2, RollRetention.Highest 3, [RollModifier.Explode 6]⟩ [6, 3, 2] =
      .error (.panic "cannot remove that many") ∧
    runAll [⟨6, 2, RollRetention.Highest 3, []⟩, ⟨6, 1, RollRetention.All, []⟩] [4, 5, 3] =
      .error (.panic "cannot remove that many") :=
  ⟨rfl, rfl, rfl, rfl⟩

/-- C5, against the claim's locality: an explosion threshold outside
[1, faces] makes `explodes_at` panic "Cannot explode above n" before any
die is drawn (the empty forced-draw list suffices), only the first
`Explode` is consulted, and the panic aborts the run — no local
`InvalidModifier` error, no evaluation of the sibling expression. -/
theorem claim_C5 :
    RollExpression.explodesAt ⟨6, 1, RollRetention.All, [RollModifier.Explode 7]⟩ =
      .error (.panic "Cannot explode above 7") ∧
    rollWith ⟨6, 1, RollRetention.All, [RollModifier.Explode 7]⟩ [] =
      .error (.panic "Cannot explode above 7") ∧
    rollWith ⟨6, 1, RollRetention.All, [RollModifier.Explode 0]⟩ [] =
      .error (.panic "Cannot explode above 0") ∧
    RollExpression.explodesAt
      ⟨6, 1, RollRetention.All, [RollModifier.Explode 6, RollModifier.Explode 50]⟩ =
      .ok (some 6) ∧
    runAll [⟨6, 1, RollRetention.All, [RollModifier.Explode 7]⟩,
            ⟨6, 1, RollRetention.All, []⟩] [3] =
      .error (.panic "Cannot explode above 7") :=
  ⟨rfl, rfl, rfl, rfl, rfl⟩

/-- C6, against the claim: a `Divide 0` modifier reaches the unguarded
`total /= 0`, which panics "attempt to divide by zero" and aborts the
run (no result for the sibling) instead of producing a recoverable,
per-expression `ArithmeticError`. -/
theorem claim_C6 :
    rollWith ⟨6, 1, RollRetention.All, [RollModifier.Divide 0]⟩ [3] =
      .error (.panic "attempt to divide by zero") ∧
    runAll [⟨6, 1, RollRetention.All, [RollModifier.Divide 0]⟩,
            ⟨6, 1, RollRetention.All, []⟩] [3, 4] =
      .error (.panic "attempt to divide by zero") :=
  ⟨rfl, rfl⟩

/-- C7: with a resolved explosion threshold `t`, every outcome of value
≥ t is followed by a further appended outcome, so the last outcome of
the pool — hence of every explosion chain — has value strictly below
`t`. -/
theorem claim_C7 (e : RollExpression) (draws : List Nat) (res : RollResult) (t : Nat)
    (h : rollWith e draws = .ok res) (ht : e.explodesAt = .ok (some t)) :
    noTrailingHot t (res.rolls.map (·.value)) ∧
    ∀ (hne : res.rolls ≠ []), (res.rolls.getLast hne).value < t := by
  obtain ⟨explodeAt, rolls, rem, h1, hd, hr, ha, hi⟩ := rollWith_ok_elim h
  rw [h1] at ht
  simp only [Except.ok.injEq] at ht
  subst ht
  have hhot := drawAll_hot e.faces t e.count draws rolls rem hd
  have hmapv : res.rolls.map (·.value) = rolls.map (·.value) :=
    (retentionFilter_shape _ _ _ _ hr).1
  have hnth : noTrailingHot t (res.rolls.map (·.value)) := by
    rw [hmapv]
    exact hhot
  refine ⟨hnth, ?_⟩
  intro hne
  by_contra hge
  push_neg at hge
  have hlenpos : 0 < res.rolls.length := List.length_pos.mpr hne
  have hidx : res.rolls.length - 1 < (res.rolls.map (·.value)).length := by
    rw [List.length_map]
    omega
  have hhot2 : t ≤ (res.rolls.map (·.value)).get ⟨res.rolls.length - 1, hidx⟩ := by
    rw [List.get_eq_getElem, List.getElem_map]
    rw [List.getLast_eq_getElem] at hge
    exact hge
  have hfin := hnth (res.rolls.length - 1) hidx hhot2
  rw [List.length_map] at hfin
  omega

/-- C7, witness: "2d6!6" with forced chain [6, 3, 2] yields three
outcomes whose value list [6, 3, 2] has no hot trailing value, and whose
last outcome 2 is below the threshold 6 (the full result, with all three
outcomes retained and total 11, is forced by the `rfl` hypotheses). -/
theorem claim_C7_witness :
    noTrailingHot 6 [6, 3, 2] ∧
    (([⟨6, true, RollQuality.Good⟩, ⟨3, true, RollQuality.Regular⟩,
       ⟨2, true, RollQuality.Regular⟩] : List RollItem).getLast (List.cons_ne_nil _ _)).value < 6 :=
  ⟨(claim_C7 ⟨6, 2, RollRetention.All, [RollModifier.Explode 6]⟩ [6, 3, 2]
      { input := "2d6!", total := 11,
        rolls := [⟨6, true, RollQuality.Good⟩, ⟨3, true, RollQuality.Regular⟩,
                  ⟨2, true, RollQuality.Regular⟩] } 6 rfl rfl).1,
   (claim_C7 ⟨6, 2, RollRetention.All, [RollModifier.Explode 6]⟩ [6, 3, 2]
      { input := "2d6!", total := 11,
        rolls := [⟨6, true, RollQuality.Good⟩, ⟨3, true, RollQuality.Regular⟩,
                  ⟨2, true, RollQuality.Regular⟩] } 6 rfl rfl).2 (List.cons_ne_nil _ _)⟩

/-- C8: on every successful evaluation the total is the plain fold, over
the modifiers in notation order, of Add/Subtract/Multiply and truncating
integer division, started from the signed sum of exactly the retained
outcomes; `Explode` leaves the running total unchanged. -/
theorem claim_C8 (e : RollExpression) (draws : List Nat) (res : RollResult)
    (h : rollWith e draws = .ok res) :
    res.total = e.modifiers.foldl (fun acc m =>
      match m with
      | RollModifier.Add n => acc + (n : Int)
      | RollModifier.Subtract n => acc - (n : Int)
      | RollModifier.Multiply n => acc * (n : Int)
      | RollModifier.Divide n => acc.tdiv (n : Int)
      | RollModifier.Explode _ => acc) (sumRetained res.rolls) := by
  obtain ⟨explodeAt, rolls, rem, h1, hd, hr, ha, hi⟩ := rollWith_ok_elim h
  exact applyModifiers_ok e.modifiers (sumRetained res.rolls) res.total ha

/-- C8, witness: "3d6+2x3/2" at draws [1, 2, 3]: sum 6, then +2, then
x3, then truncating /2 gives 12. -/
theorem claim_C8_witness :
    (12 : Int) = ([RollModifier.Add 2, RollModifier.Multiply 3,
        RollModifier.Divide 2].foldl (fun acc m =>
      match m with
      | RollModifier.Add n => acc + (n : Int)
      | RollModifier.Subtract n => acc - (n : Int)
      | RollModifier.Multiply n => acc * (n : Int)
      | RollModifier.Divide n => acc.tdiv (n : Int)
      | RollModifier.Explode _ => acc)
      (sumRetained [⟨1, true, RollQuality.Bad⟩, ⟨2, true, RollQuality.Regular⟩,
                    ⟨3, true, RollQuality.Regular⟩])) :=
  claim_C8 ⟨6, 3, RollRetention.All,
      [RollModifier.Add 2, RollModifier.Multiply 3, RollModifier.Divide 2]⟩ [1, 2, 3]
    { input := "3d6+2x3/2", total := 12,
      rolls := [⟨1, true, RollQuality.Bad⟩, ⟨2, true, RollQuality.Regular⟩,
                ⟨3, true, RollQuality.Regular⟩] } rfl

/-- C9: parsing "d%" yields count defaulted to 1, faces forced to 100,
retention `All`, no modifiers; evaluating with forced draw 57 yields
total 57 and a single outcome of value 57. -/
theorem claim_C9 :
    parseExpressions "d%" = some [⟨100, 1, RollRetention.All, []⟩] ∧
    rollWith ⟨100, 1, RollRetention.All, []⟩ [57] =
      .ok { input := "1d100", total := 57, rolls := [⟨57, true, RollQuality.Regular⟩] } :=
  ⟨rfl, rfl⟩

/-- C10: with faces = 1 every produced outcome is classified Good, never
Bad: the value-equals-faces test precedes the value-equals-1 test. -/
theorem claim_C10 (e : RollExpression) (draws : List Nat) (res : RollResult)
    (hfaces : e.faces = 1) (h : rollWith e draws = .ok res)
    (hd : ∀ d ∈ draws, 1 ≤ d ∧ d ≤ e.faces) :
    ∀ i ∈ res.rolls, i.quality = RollQuality.Good := by
  obtain ⟨explodeAt, rolls, rem, h1, hdraw, hr, ha, hi⟩ := rollWith_ok_elim h
  obtain ⟨hmem, _, _⟩ := drawAll_shape e.faces explodeAt e.count draws rolls rem hdraw
  have hq : ∀ i ∈ rolls, i.quality = RollQuality.Good := by
    intro i hi2
    obtain ⟨d, hdm, hieq⟩ := hmem i hi2
    have hrange := hd d hdm
    rw [hfaces] at hrange
    have hd1 : d = 1 := by omega
    rw [hieq, hd1, hfaces]
    rfl
  have hmapq : res.rolls.map (·.quality) = rolls.map (·.quality) :=
    (retentionFilter_shape _ _ _ _ hr).2.1
  intro i hi2
  have hmm : i.quality ∈ res.rolls.map (·.quality) := List.mem_map_of_mem _ hi2
  rw [hmapq] at hmm
  obtain ⟨j, hj, hjq⟩ := List.mem_map.mp hmm
  rw [← hjq]
  exact hq j hj

/-- C10, witness: 2d1 at the only possible draws [1, 1] produces Good
outcomes (in particular the first one). -/
theorem claim_C10_witness :
    (⟨1, true, RollQuality.Good⟩ : RollItem).quality = RollQuality.Good :=
  claim_C10 ⟨1, 2, RollRetention.All, []⟩ [1, 1]
    { input := "2d1", total := 2,
      rolls := [⟨1, true, RollQuality.Good⟩, ⟨1, true, RollQuality.Good⟩] } rfl rfl
    (by decide) ⟨1, true, RollQuality.Good⟩ (by decide)
